import Mathlib

/-!
Shallow embedding of `src/dedup.c++` (a file-deduplication tool).

The program's pipeline is: `find_files` (catalog a directory tree),
`find_duplicates` (group by size, then by content digest), and
`handle_duplicates` (pick the oldest member of each group as canonical and
apply the requested action to the rest), driven by `main`.

Modelling conventions:
* a filesystem path is a `String`; file content is a `List Nat` (the bytes);
* the content store is a function `fs : String → Option (List Nat)`
  (`none` models a file that cannot be opened, so `generate_file_hash`
  throws there);
* `std::hash<std::string>` is an arbitrary parameter
  `stdHash : List Nat → Nat` (the program only relies on it being a
  function of the content);
* `fs::last_write_time` is `mt : String → Option Nat`
  (`none` models the call throwing `filesystem_error`);
* exceptions are `Except`/`Option`; every catch site of the source is a
  local `match`;
* the traversal produced by `fs::recursive_directory_iterator` is a list
  of `DirEvent`s: the entries the walk would encounter in order, where
  `iterError` marks a point at which the iterator itself (or
  `entry.is_regular_file()`) throws — that exception is only caught by
  the catch *outside* the loop in `find_files`;
* an `unordered_map` is an association list with distinct keys; where the
  C++ iterates such a map in unspecified order, the embedding takes the
  iteration order as an explicit parameter (see `find_duplicates`).
-/

namespace Dedup

/-- Model of `struct FileInfo` (src/dedup.c++ lines 13-20): path, size, hash. -/
structure FileInfo where
  path : String
  size : Nat
  hash : String
deriving DecidableEq, Repr

/-- One step of the recursive directory walk (src/dedup.c++ line 40):
either a regular file whose `file_size()` call yields `some s` or throws
(`none`), a non-regular entry, or a throw from the iterator itself /
`is_regular_file()` — which the source only catches outside the loop. -/
inductive DirEvent where
  | file (path : String) (size : Option Nat)
  | other
  | iterError
deriving DecidableEq, Repr

/-- Embedding of `find_files` (src/dedup.c++ lines 36-57).  Returns the catalog and the
warnings printed to `cerr`.  A `file p none` event is the inner
`catch (...)`: warn and skip that entry.  An `iterError` event is caught by
the *outer* catch: warn and return the files collected so far — the rest of
the event stream is never visited. -/
def find_files : List DirEvent → List FileInfo × List String
  | [] => ([], [])
  | DirEvent.file p (some s) :: rest =>
    ((⟨p, s, ""⟩ : FileInfo) :: (find_files rest).1, (find_files rest).2)
  | DirEvent.file p none :: rest =>
    ((find_files rest).1, ("Error accessing: " ++ p) :: (find_files rest).2)
  | DirEvent.other :: rest => find_files rest
  | DirEvent.iterError :: _ => ([], ["Filesystem error"])

/-- Embedding of `generate_file_hash` (src/dedup.c++ lines 23-33): read the whole
content (throwing, i.e. `none`, if the file cannot be opened) and return
`to_string(content.size()) + "_" + to_string(hash(content))`. -/
def generate_file_hash (stdHash : List Nat → Nat) (fs : String → Option (List Nat))
    (p : String) : Option String :=
  match fs p with
  | none => none
  | some content => some (Nat.repr content.length ++ "_" ++ Nat.repr (stdHash content))

/-- Semantics of `m[k].push_back v` on an `unordered_map<string, vector<FileInfo>>`:
append `v` to the vector at key `k`, creating the entry if absent (new
keys are placed at the end; the C++ key iteration order is unspecified,
but each bucket's final duplicates map does not depend on it — see
`find_duplicates`). -/
def alPush (k : String) (v : FileInfo) :
    List (String × List FileInfo) → List (String × List FileInfo)
  | [] => [(k, [v])]
  | (k', vs) :: rest =>
    if k' = k then (k', vs ++ [v]) :: rest else (k', vs) :: alPush k v rest

/-- Semantics of `m[k] = v` on an `unordered_map<string, vector<FileInfo>>`: overwrite
the value at key `k`, creating the entry if absent. -/
def alSet (k : String) (v : List FileInfo) :
    List (String × List FileInfo) → List (String × List FileInfo)
  | [] => [(k, v)]
  | (k', v') :: rest =>
    if k' = k then (k, v) :: rest else (k', v') :: alSet k v rest

/-- Lookup in an association list (first binding wins). -/
def alGet (k : String) : List (String × List FileInfo) → Option (List FileInfo)
  | [] => none
  | (k', v) :: rest => if k' = k then some v else alGet k rest

/-- The inner loop of `find_duplicates` over one size bucket
(src/dedup.c++ lines 76-84): hash every member, skipping (with a warning)
the ones whose hashing throws, and build
`hash_groups[hash].emplace_back(file.path, size, hash)`. -/
def hashGroup (stdHash : List Nat → Nat) (fs : String → Option (List Nat)) (s : Nat) :
    List FileInfo → List (String × List FileInfo) → List (String × List FileInfo)
  | [], acc => acc
  | f :: rest, acc =>
    match generate_file_hash stdHash fs f.path with
    | none => hashGroup stdHash fs s rest acc
    | some h => hashGroup stdHash fs s rest (alPush h ⟨f.path, s, h⟩ acc)

/-- The size bucket for size `s`: `size_groups[s]` after the first loop of
`find_duplicates` (src/dedup.c++ lines 67-69) — the input files of that
size, in input order. -/
def bucketOf (files : List FileInfo) (s : Nat) : List FileInfo :=
  files.filter (fun f => f.size == s)

/-- The writes one size bucket performs on the shared `duplicates` map
(src/dedup.c++ lines 72-91): nothing if the bucket has at most one member;
otherwise every hash group of the bucket with 2+ members. -/
def sizeWrites (stdHash : List Nat → Nat) (fs : String → Option (List Nat))
    (files : List FileInfo) (s : Nat) : List (String × List FileInfo) :=
  let group := bucketOf files s
  if 1 < group.length then
    (hashGroup stdHash fs s group []).filter (fun e => 1 < e.2.length)
  else []

/-- Performs `duplicates[hash] = files` for each emitted hash group, in sequence. -/
def applyWrites (d : List (String × List FileInfo)) (ws : List (String × List FileInfo)) :
    List (String × List FileInfo) :=
  ws.foldl (fun d e => alSet e.1 e.2 d) d

/-- Embedding of `find_duplicates` (src/dedup.c++ lines 60-95).  `order` is the key
iteration order of the `unordered_map` `size_groups` — unspecified in C++,
hence an explicit parameter here; a run iterates the distinct sizes once
each, in some order (see `sizesOf` for the concrete instance used by
`main_run`, and theorem `C9`-material for order-independence). -/
def find_duplicates (stdHash : List Nat → Nat) (fs : String → Option (List Nat))
    (order : List Nat) (files : List FileInfo) : List (String × List FileInfo) :=
  order.foldl (fun dups s => applyWrites dups (sizeWrites stdHash fs files s)) []

/-- One concrete iteration order over the distinct sizes of the catalog. -/
def sizesOf (files : List FileInfo) : List Nat :=
  (files.map FileInfo.size).dedup

/-- The grouping engine as invoked by `main`, with a fixed iteration order. -/
def find_duplicates_run (stdHash : List Nat → Nat) (fs : String → Option (List Nat))
    (files : List FileInfo) : List (String × List FileInfo) :=
  find_duplicates stdHash fs (sizesOf files) files

/-! ## Canonical selection and action execution (`handle_duplicates`, lines 98-145) -/

/-- A filesystem mutation attempted by the action executor:
`fs::remove p` or `fs::create_hard_link(orig, p)` (which creates the new
directory entry at `p`, pointing at `orig`'s content). -/
inductive FsOp where
  | remove (p : String)
  | link (p : String) (orig : String)
deriving DecidableEq, Repr

/-- The path an operation creates or removes (the path it mutates);
`link p orig` only reads `orig`. -/
def FsOp.target : FsOp → String
  | FsOp.remove p => p
  | FsOp.link p _ => p

/-- The reported outcome for one superseded file: `listed` = only the
"Duplicate:" line (list mode or unrecognized action), `deleted` /
`deleteFailed` for delete mode, `linked` ("Created hardlink") /
`hardlinkFailed` ("Hardlink failed" on `cerr`) for hardlink mode.  The
source prints the same "Hardlink failed" message whether the `remove` or
the `create_hard_link` call threw, so both map to `hardlinkFailed`. -/
inductive Outcome where
  | listed
  | deleted
  | deleteFailed
  | linked
  | hardlinkFailed
deriving DecidableEq, Repr

/-- The report line(s) for one superseded file. -/
structure FileAction where
  path : String
  outcome : Outcome
deriving DecidableEq, Repr

/-- The per-group report: the "Hash:" line, the "Original:" line, and one
entry per superseded file, in processing order. -/
structure GroupReport where
  hash : String
  original : String
  actions : List FileAction
deriving DecidableEq, Repr

/-- Presence state of the filesystem's directory entries:
`st p = true` iff a directory entry exists at path `p`. -/
def FsSt := String → Bool

/-- The per-file body of the loop over superseded files
(src/dedup.c++ lines 121-143).  `re p = true` models `fs::remove p`
throwing; `le p = true` models `fs::create_hard_link(orig, p)` throwing.
Returns the outcome, the new presence state, and the list of mutation
attempts in order.  Note the non-atomic hardlink path: if the remove
succeeded and the link throws, the entry at `p` stays removed. -/
def applyAction (re le : String → Bool) (action : String) (orig : String)
    (st : FsSt) (p : String) : Outcome × FsSt × List FsOp :=
  if action = "--delete" then
    if re p then (Outcome.deleteFailed, st, [FsOp.remove p])
    else (Outcome.deleted, fun q => if q = p then false else st q, [FsOp.remove p])
  else if action = "--hardlink" then
    if re p then (Outcome.hardlinkFailed, st, [FsOp.remove p])
    else
      if le p then
        (Outcome.hardlinkFailed, fun q => if q = p then false else st q,
          [FsOp.remove p, FsOp.link p orig])
      else
        (Outcome.linked, fun q => if q = p then true else st q,
          [FsOp.remove p, FsOp.link p orig])
  else (Outcome.listed, st, [])

/-- The body of `handle_duplicates` for one group, taking the already
sorted member list (src/dedup.c++ lines 116-143): keep the front as the
original and run `applyAction` over the rest in order, threading the
filesystem state and collecting the report and the mutation attempts.
(`sorted = []` cannot arise: groups always have 2+ members; on `[]` the
C++ `front()` would be undefined, here it yields an empty report.) -/
def processSorted (re le : String → Bool) (action hash : String)
    (sorted : List String) (st : FsSt) : GroupReport × FsSt × List FsOp :=
  match sorted with
  | [] => (⟨hash, "", []⟩, st, [])
  | orig :: rest =>
    let r := rest.foldl
      (fun (acc : List FileAction × FsSt × List FsOp) p =>
        let a := applyAction re le action orig acc.2.1 p
        (acc.1 ++ [⟨p, a.1⟩], a.2.1, acc.2.2 ++ a.2.2))
      ([], st, [])
    (⟨hash, orig, r.1⟩, r.2.1, r.2.2)

/-- Insert into a list already sorted by modification time, after any
element with an earlier-or-equal time. -/
def insertByMt (mt : String → Nat) (p : String) : List String → List String
  | [] => [p]
  | q :: rest => if mt q ≤ mt p then q :: insertByMt mt p rest else p :: q :: rest

/-- One standard-conforming implementation of
`std::sort(v, [](a,b){ return last_write_time(a) < last_write_time(b); })`:
an insertion sort (what libstdc++ itself runs on small ranges). -/
def sortByMt (mt : String → Nat) (l : List String) : List String :=
  l.foldl (fun acc p => insertByMt mt p acc) []

/-- The predicate `is_sorted` under the comparator `last_write_time a < last_write_time b`:
no adjacent pair is out of order. -/
def sortedByMt (mt : String → Nat) : List String → Bool
  | [] => true
  | [_] => true
  | a :: b :: rest => decide (mt a ≤ mt b) && sortedByMt mt (b :: rest)

/-- All that the C++ standard guarantees about the `std::sort` call in
`handle_duplicates` (src/dedup.c++ lines 111-114): the result is *some*
permutation of the input that is sorted under the comparator.
`std::sort` is not stable, so for members with equal modification times
the resulting order — in particular the front element, the kept
"original" — is not specified beyond this relation. -/
def IsSortOutcome (mt : String → Nat) (l out : List String) : Prop :=
  out.Perm l ∧ sortedByMt mt out = true

/-- Reads `last_write_time` of every member, in order; `none` as soon as one
read throws.  The comparator of the `std::sort` call reads the
modification time of its arguments on every comparison and every member
of a 2+ element range takes part in at least one comparison, so the sort
completes iff every member's time is readable, and otherwise the
`filesystem_error` propagates (there is no try/catch in
`handle_duplicates`). -/
def mtimesOf (mt : String → Option Nat) : List String → Option (List Nat)
  | [] => some []
  | p :: rest =>
    match mt p with
    | none => none
    | some t =>
      match mtimesOf mt rest with
      | none => none
      | some ts => some (t :: ts)

/-- Embedding of `handle_duplicates` (src/dedup.c++ lines 98-145).  Processes the
groups in the given order; for each group, sorting by modification time
throws (uncaught) if any member's time is unreadable — modelled by
`Except.error`, which also carries the filesystem state and the mutations
performed before the throw.  Action failures (`re`/`le`) never abort. -/
def handle_duplicates (mt : String → Option Nat) (re le : String → Bool)
    (action : String) (groups : List (String × List FileInfo)) (st : FsSt) :
    Except (String × FsSt × List FsOp) (List GroupReport × FsSt × List FsOp) :=
  match groups with
  | [] => Except.ok ([], st, [])
  | (h, fl) :: rest =>
    match mtimesOf mt (fl.map FileInfo.path) with
    | none => Except.error ("filesystem error", st, [])
    | some _ =>
      match handle_duplicates mt re le action rest
        (processSorted re le action h
          (sortByMt (fun p => (mt p).getD 0) (fl.map FileInfo.path)) st).2.1 with
      | Except.error e =>
        Except.error (e.1, e.2.1,
          (processSorted re le action h
            (sortByMt (fun p => (mt p).getD 0) (fl.map FileInfo.path)) st).2.2 ++ e.2.2)
      | Except.ok t =>
        Except.ok ((processSorted re le action h
            (sortByMt (fun p => (mt p).getD 0) (fl.map FileInfo.path)) st).1 :: t.1,
          t.2.1,
          (processSorted re le action h
            (sortByMt (fun p => (mt p).getD 0) (fl.map FileInfo.path)) st).2.2 ++ t.2.2)

/-- Whether an `Except` is an error (an uncaught exception). -/
def isErr : Except (String × FsSt × List FsOp) (List GroupReport × FsSt × List FsOp) → Bool
  | Except.error _ => true
  | Except.ok _ => false

/-! ## The `main` driver (src/dedup.c++ lines 147-189) -/

/-- Observable result of one program run: the exit status, the number of
cataloged files (`none` if the run never reached the scanning phase), the
group reports, the final filesystem state, and the mutation attempts. -/
structure RunResult where
  exit : Nat
  scanned : Option Nat
  reports : List GroupReport
  finalSt : FsSt
  ops : List FsOp

/-- Embedding of `main` (src/dedup.c++ lines 147-189).  `args` is `argv` without the
program name; `rootValid` is the value of
`fs::exists(directory) && fs::is_directory(directory)`.  Missing argument
or invalid root: exit 1 before any scanning.  Otherwise the pipeline runs
inside `main`'s try block, whose only possible uncaught exception is the
`last_write_time` throw out of `handle_duplicates` (every other catch in
the source is local): on it, exit 1; on completion, exit 0. -/
def main_run (stdHash : List Nat → Nat) (fs : String → Option (List Nat))
    (mt : String → Option Nat) (re le : String → Bool)
    (args : List String) (rootValid : Bool) (events : List DirEvent)
    (st : FsSt) : RunResult :=
  if args.length < 1 then ⟨1, none, [], st, []⟩
  else if rootValid = false then ⟨1, none, [], st, []⟩
  else if find_duplicates_run stdHash fs (find_files events).1 = [] then
    ⟨0, some (find_files events).1.length, [], st, []⟩
  else
    match handle_duplicates mt re le ((args.drop 1).headD "--list")
      (find_duplicates_run stdHash fs (find_files events).1) st with
    | Except.error e => ⟨1, some (find_files events).1.length, [], e.2.1, e.2.2⟩
    | Except.ok t => ⟨0, some (find_files events).1.length, t.1, t.2.1, t.2.2⟩

/-- What holds of every member `a` filed under digest key `h` in the size-`s`
bucket: its recorded hash is the key, its recorded size is the bucket size,
its digest really is the key, and it descends from a catalog entry. -/
def MemberOk (stdHash : List Nat → Nat) (fs : String → Option (List Nat))
    (files : List FileInfo) (s : Nat) (h : String) (a : FileInfo) : Prop :=
  a.hash = h ∧ a.size = s ∧ generate_file_hash stdHash fs a.path = some h ∧
    ∃ f ∈ files, f.path = a.path ∧ f.size = s

/-- Every group the engine emits is well formed: 2+ members, drawn from one
size bucket, with the group's digest as each member's digest. -/
def GroupWf (stdHash : List Nat → Nat) (fs : String → Option (List Nat))
    (files : List FileInfo) (e : String × List FileInfo) : Prop :=
  1 < e.2.length ∧ ∃ s, ∀ a ∈ e.2, MemberOk stdHash fs files s e.1 a

/-- The outcome reported for one superseded file depends only on the action
string and the failure oracles, never on the filesystem state. -/
def outcomeOfFile (re le : String → Bool) (action p : String) : Outcome :=
  if action = "--delete" then
    (if re p then Outcome.deleteFailed else Outcome.deleted)
  else if action = "--hardlink" then
    (if re p then Outcome.hardlinkFailed
     else if le p then Outcome.hardlinkFailed else Outcome.linked)
  else Outcome.listed

/-- The mutation attempts made for one superseded file. -/
def opsOfFile (re le : String → Bool) (action orig p : String) : List FsOp :=
  if action = "--delete" then [FsOp.remove p]
  else if action = "--hardlink" then
    (if re p then [FsOp.remove p] else [FsOp.remove p, FsOp.link p orig])
  else []

/-- Whether a directory entry exists at `p` after its own processing step,
as a function of whether one existed before. -/
def postPresence (re le : String → Bool) (action p : String) (old : Bool) : Bool :=
  if action = "--delete" then (if re p then old else false)
  else if action = "--hardlink" then
    (if re p then old else if le p then false else true)
  else old

/-- The filesystem state after processing the superseded files `rest` in
order, starting from `st`. -/
def stateAfter (re le : String → Bool) (action : String) (rest : List String)
    (st : FsSt) : FsSt :=
  rest.foldl
    (fun s p => fun q => if q = p then postPresence re le action p (s p) else s q) st

/-- A catalog is consistent with the content store when every readable
file's content length equals its cataloged size (i.e. the filesystem did
not change between `find_files` and hashing). -/
def Consistent (fs : String → Option (List Nat)) (files : List FileInfo) : Prop :=
  ∀ f ∈ files, ∀ c, fs f.path = some c → c.length = f.size

/-- The action of one size bucket on the key→group map, at the level of
lookup functions. -/
def writeStep (stdHash : List Nat → Nat) (fs : String → Option (List Nat))
    (files : List FileInfo) (s : Nat) (g : String → Option (List FileInfo)) :
    String → Option (List FileInfo) :=
  fun q => match alGet q (sizeWrites stdHash fs files s) with
    | some v => some v
    | none => g q

/-! ## Concrete fixtures used by witnesses and counterexamples

A small world: files `a` and `b` hold the byte `5`, file `c` holds two
bytes; `a` and `b` therefore form the one duplicate group. -/

/-- A concrete stand-in for `std::hash<std::string>`: sum of the bytes. -/
def stdHashEx : List Nat → Nat := fun c => c.foldl (fun a x => a + x) 0

def fsEx : String → Option (List Nat) := fun p =>
  match p with
  | "a" => some [5]
  | "b" => some [5]
  | "c" => some [8, 9]
  | _ => none

def filesEx : List FileInfo := [⟨"a", 1, ""⟩, ⟨"b", 1, ""⟩, ⟨"c", 2, ""⟩]

def eventsEx : List DirEvent :=
  [DirEvent.file "a" (some 1), DirEvent.file "b" (some 1), DirEvent.file "c" (some 2)]

/-- Traversal with a per-entry size failure (entry `bad`). -/
def eventsSkipEx : List DirEvent :=
  [DirEvent.file "a" (some 1), DirEvent.file "bad" none, DirEvent.file "c" (some 2)]

def mtEx : String → Option Nat := fun p =>
  match p with
  | "a" => some 3
  | "b" => some 7
  | "c" => some 1
  | _ => none

/-- Modification times where reading `b` (and anything but `a`) throws. -/
def mtBadEx : String → Option Nat := fun p =>
  match p with
  | "a" => some 3
  | _ => none

/-- All modification times equal (a tie). -/
def mtFlat : String → Nat := fun _ => 0

/-- Time map where `a` is newer than `b`. -/
def mtW : String → Nat := fun p => match p with | "b" => 2 | _ => 5

def reNone : String → Bool := fun _ => false

def leNone : String → Bool := fun _ => false

/-- Every `create_hard_link` call throws. -/
def leAll : String → Bool := fun _ => true

def stAll : FsSt := fun _ => true

def groupsEx : List (String × List FileInfo) := find_duplicates_run stdHashEx fsEx filesEx

/-! ## Decimal rendering (`std::to_string` on unsigned values = `Nat.repr`)

The digest produced by `generate_file_hash` is
`to_string(content.size()) + "_" + to_string(hash)`.  The claims about it
need two facts about decimal rendering: it never contains `'_'`, and it is
injective — together these make the length prefix of a digest recoverable,
so digests of contents of different lengths are distinct strings. -/

/-- The digit list of `n` in base 10, most significant first (the
characters `Nat.repr` produces, see `repr_data`). -/
def natDigits (n : Nat) : List Char :=
  if h : n < 10 then [Nat.digitChar n]
  else
    have : n / 10 < n := Nat.div_lt_self (by omega) (by omega)
    natDigits (n / 10) ++ [Nat.digitChar (n % 10)]

theorem natDigits_lt {n : Nat} (h : n < 10) : natDigits n = [Nat.digitChar n] := by
  rw [natDigits]
  simp [h]

theorem natDigits_ge {n : Nat} (h : ¬n < 10) :
    natDigits n = natDigits (n / 10) ++ [Nat.digitChar (n % 10)] := by
  rw [natDigits]
  simp [h]

theorem toDigitsCore_eq_natDigits (f : Nat) :
    ∀ n ds, n < f → Nat.toDigitsCore 10 f n ds = natDigits n ++ ds := by
  induction f with
  | zero => intro n ds h; omega
  | succ f ih =>
    intro n ds _
    show (if n / 10 = 0 then Nat.digitChar (n % 10) :: ds
      else Nat.toDigitsCore 10 f (n / 10) (Nat.digitChar (n % 10) :: ds)) = _
    by_cases h10 : n < 10
    · rw [if_pos (by omega), natDigits_lt h10, Nat.mod_eq_of_lt h10]
      simp
    · have hdiv : n / 10 ≠ 0 := by
        intro h0
        have := Nat.div_eq_zero_iff (by omega : 0 < 10) |>.mp h0
        omega
      rw [if_neg hdiv]
      have hlt : n / 10 < f := by
        have h1 : n / 10 < n := Nat.div_lt_self (by omega) (by omega)
        omega
      rw [ih (n / 10) _ hlt, natDigits_ge h10, List.append_assoc,
        List.singleton_append]

/-- The characters of `Nat.repr n` are exactly `natDigits n`. -/
theorem repr_data (n : Nat) : (Nat.repr n).data = natDigits n := by
  show (Nat.toDigits 10 n).asString.data = natDigits n
  rw [Nat.toDigits, toDigitsCore_eq_natDigits (n + 1) n [] (Nat.lt_succ_self n)]
  simp [List.asString]

theorem digitChar_ne_underscore {n : Nat} (h : n < 10) : Nat.digitChar n ≠ '_' := by
  interval_cases n <;> decide

theorem digitChar_injOn {a b : Nat} (ha : a < 10) (hb : b < 10)
    (h : Nat.digitChar a = Nat.digitChar b) : a = b := by
  interval_cases a <;> interval_cases b <;> revert h <;> decide

theorem natDigits_ne_nil (n : Nat) : natDigits n ≠ [] := by
  by_cases h : n < 10
  · rw [natDigits_lt h]; simp
  · rw [natDigits_ge h]; simp

theorem underscore_not_mem_natDigits (n : Nat) : '_' ∉ natDigits n := by
  induction n using Nat.strong_induction_on with
  | _ n ih =>
    by_cases h : n < 10
    · rw [natDigits_lt h]
      simp only [List.mem_singleton]
      exact fun e => digitChar_ne_underscore h e.symm
    · rw [natDigits_ge h]
      have hdiv : n / 10 < n := Nat.div_lt_self (by omega) (by omega)
      simp only [List.mem_append, List.mem_singleton]
      rintro (hmem | he)
      · exact ih (n / 10) hdiv hmem
      · exact digitChar_ne_underscore (Nat.mod_lt n (by omega)) he.symm

theorem natDigits_inj : ∀ {m n : Nat}, natDigits m = natDigits n → m = n := by
  intro m
  induction m using Nat.strong_induction_on with
  | _ m ih =>
    intro n h
    by_cases hm : m < 10 <;> by_cases hn : n < 10
    · rw [natDigits_lt hm, natDigits_lt hn] at h
      exact digitChar_injOn hm hn (by simpa using h)
    · exfalso
      rw [natDigits_lt hm, natDigits_ge hn] at h
      have hlen := congrArg List.length h
      simp only [List.length_singleton, List.length_append] at hlen
      exact natDigits_ne_nil (n / 10) (List.length_eq_zero.mp (by omega))
    · exfalso
      rw [natDigits_ge hm, natDigits_lt hn] at h
      have hlen := congrArg List.length h
      simp only [List.length_singleton, List.length_append] at hlen
      exact natDigits_ne_nil (m / 10) (List.length_eq_zero.mp (by omega))
    · rw [natDigits_ge hm, natDigits_ge hn] at h
      have hrev := congrArg List.reverse h
      simp only [List.reverse_append, List.reverse_singleton, List.singleton_append,
        List.cons.injEq] at hrev
      have hmod : m % 10 = n % 10 :=
        digitChar_injOn (Nat.mod_lt m (by omega)) (Nat.mod_lt n (by omega)) hrev.1
      have hdigits : natDigits (m / 10) = natDigits (n / 10) :=
        List.reverse_injective hrev.2
      have hdivlt : m / 10 < m := Nat.div_lt_self (by omega) (by omega)
      have hdiv : m / 10 = n / 10 := ih (m / 10) hdivlt hdigits
      omega

/-- Splitting at an underscore is unambiguous when neither prefix contains
one. -/
theorem append_underscore_inj :
    ∀ (s t u v : List Char), '_' ∉ s → '_' ∉ t →
      s ++ '_' :: u = t ++ '_' :: v → s = t ∧ u = v := by
  intro s
  induction s with
  | nil =>
    intro t u v _ ht h
    cases t with
    | nil => simpa using h
    | cons d t' =>
      exfalso
      simp only [List.nil_append, List.cons_append, List.cons.injEq] at h
      exact ht (h.1 ▸ List.mem_cons_self d t')
  | cons c s' ih =>
    intro t u v hs ht h
    cases t with
    | nil =>
      exfalso
      simp only [List.cons_append, List.nil_append, List.cons.injEq] at h
      exact hs (h.1.symm ▸ List.mem_cons_self c s')
    | cons d t' =>
      simp only [List.cons_append, List.cons.injEq] at h
      have hs' : '_' ∉ s' := fun hm => hs (List.mem_cons_of_mem c hm)
      have ht' : '_' ∉ t' := fun hm => ht (List.mem_cons_of_mem d hm)
      have := ih t' u v hs' ht' h.2
      exact ⟨by rw [h.1, this.1], this.2⟩

/-- The digest string determines its length prefix: digests built from
different lengths are different strings. -/
theorem digest_length_inj {a b x y : Nat}
    (h : Nat.repr a ++ "_" ++ Nat.repr x = Nat.repr b ++ "_" ++ Nat.repr y) :
    a = b := by
  have hd := congrArg String.data h
  rw [String.data_append, String.data_append, String.data_append,
    String.data_append] at hd
  have h' : natDigits a ++ '_' :: natDigits x
      = natDigits b ++ '_' :: natDigits y := by
    have hu : ("_" : String).data = ['_'] := rfl
    simp only [repr_data] at hd
    simpa [hu, List.append_assoc] using hd
  exact natDigits_inj (append_underscore_inj _ _ _ _
    (underscore_not_mem_natDigits a) (underscore_not_mem_natDigits b) h').1

/-! ## Association-list lemmas (`unordered_map` behaviour) -/

theorem alSet_mem {e : String × List FileInfo} {k : String} {v : List FileInfo} :
    ∀ {m}, e ∈ alSet k v m → e = (k, v) ∨ e ∈ m := by
  intro m
  induction m with
  | nil => intro h; simpa [alSet] using h
  | cons kv rest ih =>
    intro h
    rw [alSet] at h
    split at h
    · rcases List.mem_cons.mp h with h1 | h1
      · exact Or.inl h1
      · exact Or.inr (List.mem_cons_of_mem _ h1)
    · rcases List.mem_cons.mp h with h1 | h1
      · exact Or.inr (h1 ▸ List.mem_cons_self kv rest)
      · rcases ih h1 with h2 | h2
        · exact Or.inl h2
        · exact Or.inr (List.mem_cons_of_mem _ h2)

theorem alGet_alSet (q k : String) (v : List FileInfo) :
    ∀ m, alGet q (alSet k v m) = if q = k then some v else alGet q m := by
  intro m
  induction m with
  | nil =>
    by_cases h : q = k
    · subst h; simp [alSet, alGet]
    · simp only [alSet, alGet]
      rw [if_neg (fun e : k = q => h e.symm), if_neg h]
  | cons kv rest ih =>
    rcases kv with ⟨k', v'⟩
    simp only [alSet]
    split
    · next heq =>
      subst heq
      by_cases h : q = k'
      · subst h; simp [alGet]
      · simp only [alGet]
        rw [if_neg (fun e : k' = q => h e.symm), if_neg h,
          if_neg (fun e : k' = q => h e.symm)]
    · next hne =>
      simp only [alGet]
      rw [ih]
      by_cases h : k' = q
      · have hqk : ¬q = k := fun e => hne (h.trans e)
        rw [if_pos h, if_neg hqk, if_pos h]
      · rw [if_neg h, if_neg h]

theorem alGet_eq_none {q : String} :
    ∀ {m : List (String × List FileInfo)}, q ∉ m.map Prod.fst → alGet q m = none := by
  intro m
  induction m with
  | nil => intro _; rfl
  | cons kv rest ih =>
    intro h
    rw [alGet]
    simp only [List.map_cons, List.mem_cons] at h
    rw [if_neg (fun e => h (Or.inl e.symm))]
    exact ih (fun e => h (Or.inr e))

theorem alGet_applyWrites :
    ∀ (ws : List (String × List FileInfo)), (ws.map Prod.fst).Nodup →
      ∀ d q, alGet q (applyWrites d ws)
        = match alGet q ws with
          | some v => some v
          | none => alGet q d := by
  intro ws
  induction ws with
  | nil => intro _ d q; rfl
  | cons w rest ih =>
    intro hnd d q
    simp only [List.map_cons, List.nodup_cons] at hnd
    show alGet q (applyWrites (alSet w.1 w.2 d) rest) = _
    rw [ih hnd.2 _ q]
    by_cases h : q = w.1
    · have hrest : alGet q rest = none := alGet_eq_none (h ▸ hnd.1)
      rw [hrest, alGet_alSet, if_pos h]
      show some w.2 = _
      rw [alGet]
      simp [h.symm]
    · rw [alGet_alSet, if_neg h]
      conv_rhs => rw [alGet]
      rw [if_neg (fun e => h e.symm)]

theorem applyWrites_mem {e : String × List FileInfo} :
    ∀ {ws d}, e ∈ applyWrites d ws → e ∈ d ∨ e ∈ ws := by
  intro ws
  induction ws with
  | nil => intro d h; exact Or.inl h
  | cons w rest ih =>
    intro d h
    rcases ih h with h1 | h1
    · rcases alSet_mem h1 with h2 | h2
      · exact Or.inr (h2 ▸ List.mem_cons_self w rest)
      · exact Or.inl h2
    · exact Or.inr (List.mem_cons_of_mem _ h1)

theorem alPush_inv (P : String → FileInfo → Prop) (k : String) (v : FileInfo)
    (hv : P k v) :
    ∀ {m}, (∀ e ∈ m, ∀ a ∈ e.2, P e.1 a) →
      ∀ e ∈ alPush k v m, ∀ a ∈ e.2, P e.1 a := by
  intro m
  induction m with
  | nil =>
    intro _ e he a ha
    simp only [alPush, List.mem_singleton] at he
    subst he
    simp only [List.mem_singleton] at ha
    exact ha.symm ▸ hv
  | cons kv rest ih =>
    intro hm e he a ha
    rw [alPush] at he
    split at he
    · next heq =>
      rcases List.mem_cons.mp he with h1 | h1
      · subst h1
        simp only [List.mem_append, List.mem_singleton] at ha
        rcases ha with h2 | h2
        · exact hm kv (List.mem_cons_self kv rest) a h2
        · have hk : P k a := h2.symm ▸ hv
          exact heq.symm ▸ hk
      · exact hm e (List.mem_cons_of_mem _ h1) a ha
    · rcases List.mem_cons.mp he with h1 | h1
      · exact hm e (h1 ▸ List.mem_cons_self kv rest) a ha
      · exact ih (fun e' he' => hm e' (List.mem_cons_of_mem _ he')) e h1 a ha

theorem alPush_keys (k : String) (v : FileInfo) :
    ∀ m, (alPush k v m).map Prod.fst
      = if k ∈ m.map Prod.fst then m.map Prod.fst else m.map Prod.fst ++ [k] := by
  intro m
  induction m with
  | nil => simp [alPush]
  | cons kv rest ih =>
    rw [alPush]
    split
    · next heq => simp [heq]
    · next hne =>
      simp only [List.map_cons]
      rw [ih]
      by_cases h : k ∈ rest.map Prod.fst
      · rw [if_pos h, if_pos (List.mem_cons_of_mem _ h)]
      · have hnotin : k ∉ kv.1 :: rest.map Prod.fst := by
          intro hc
          rcases List.mem_cons.mp hc with hc | hc
          · exact hne hc.symm
          · exact h hc
        rw [if_neg h, if_neg hnotin, List.cons_append]

theorem alPush_keys_nodup {k : String} {v : FileInfo}
    {m : List (String × List FileInfo)} (h : (m.map Prod.fst).Nodup) :
    ((alPush k v m).map Prod.fst).Nodup := by
  rw [alPush_keys]
  split
  · exact h
  · next hne =>
    rw [List.nodup_append]
    refine ⟨h, List.nodup_singleton k, ?_⟩
    intro a ha hb
    rw [List.mem_singleton] at hb
    exact hne (hb ▸ ha)

/-! ## The grouping invariant of `find_duplicates` -/

theorem hashGroup_inv (stdHash : List Nat → Nat) (fs : String → Option (List Nat))
    (files : List FileInfo) (s : Nat) :
    ∀ (grp acc : _), (∀ f ∈ grp, f ∈ files ∧ f.size = s) →
      (∀ e ∈ acc, ∀ a ∈ e.2, MemberOk stdHash fs files s e.1 a) →
      ∀ e ∈ hashGroup stdHash fs s grp acc, ∀ a ∈ e.2,
        MemberOk stdHash fs files s e.1 a := by
  intro grp
  induction grp with
  | nil => intro acc _ hacc; exact hacc
  | cons f rest ih =>
    intro acc hgrp hacc
    rw [hashGroup]
    rcases hgen : generate_file_hash stdHash fs f.path with _ | h
    · exact ih acc (fun g hg => hgrp g (List.mem_cons_of_mem _ hg)) hacc
    · refine ih _ (fun g hg => hgrp g (List.mem_cons_of_mem _ hg)) ?_
      refine alPush_inv _ h ⟨f.path, s, h⟩ ?_ hacc
      have hf := hgrp f (List.mem_cons_self f rest)
      exact ⟨rfl, rfl, hgen, f, hf.1, rfl, hf.2⟩

theorem hashGroup_keys_nodup (stdHash : List Nat → Nat)
    (fs : String → Option (List Nat)) (s : Nat) :
    ∀ (grp acc : _), ((acc.map Prod.fst).Nodup) →
      (((hashGroup stdHash fs s grp acc).map Prod.fst)).Nodup := by
  intro grp
  induction grp with
  | nil => intro acc h; exact h
  | cons f rest ih =>
    intro acc h
    rw [hashGroup]
    rcases generate_file_hash stdHash fs f.path with _ | hh
    · exact ih acc h
    · exact ih _ (alPush_keys_nodup h)

theorem sizeWrites_mem {stdHash : List Nat → Nat} {fs : String → Option (List Nat)}
    {files : List FileInfo} {s : Nat} {e : String × List FileInfo}
    (h : e ∈ sizeWrites stdHash fs files s) :
    1 < e.2.length ∧ ∀ a ∈ e.2, MemberOk stdHash fs files s e.1 a := by
  rw [sizeWrites] at h
  split at h
  · have h' := List.mem_filter.mp h
    refine ⟨by simpa using h'.2, ?_⟩
    refine hashGroup_inv stdHash fs files s _ [] ?_ (by simp) e h'.1
    intro f hf
    have := List.mem_filter.mp hf
    exact ⟨this.1, by simpa using this.2⟩
  · simp at h

theorem sizeWrites_keys_nodup (stdHash : List Nat → Nat)
    (fs : String → Option (List Nat)) (files : List FileInfo) (s : Nat) :
    (((sizeWrites stdHash fs files s).map Prod.fst)).Nodup := by
  rw [sizeWrites]
  split
  · refine List.Nodup.sublist (List.Sublist.map _ (List.filter_sublist _)) ?_
    exact hashGroup_keys_nodup stdHash fs s _ [] (by simp)
  · simp

theorem find_duplicates_fold_inv (stdHash : List Nat → Nat)
    (fs : String → Option (List Nat)) (files : List FileInfo) :
    ∀ (order : List Nat) (d : List (String × List FileInfo)),
      (∀ e ∈ d, GroupWf stdHash fs files e) →
      ∀ e ∈ order.foldl
        (fun dups s => applyWrites dups (sizeWrites stdHash fs files s)) d,
        GroupWf stdHash fs files e := by
  intro order
  induction order with
  | nil => intro d hd; exact hd
  | cons s rest ih =>
    intro d hd
    refine ih _ ?_
    intro e he
    rcases applyWrites_mem he with h1 | h1
    · exact hd e h1
    · have := sizeWrites_mem h1
      exact ⟨this.1, s, this.2⟩

theorem find_duplicates_mem {stdHash : List Nat → Nat}
    {fs : String → Option (List Nat)} {order : List Nat} {files : List FileInfo}
    {e : String × List FileInfo} (h : e ∈ find_duplicates stdHash fs order files) :
    GroupWf stdHash fs files e :=
  find_duplicates_fold_inv stdHash fs files order [] (by simp) e h

/-! ## Characterisation of the action executor -/

theorem applyAction_eq (re le : String → Bool) (action orig : String)
    (st : FsSt) (p : String) :
    applyAction re le action orig st p
      = (outcomeOfFile re le action p,
         fun q => if q = p then postPresence re le action p (st p) else st q,
         opsOfFile re le action orig p) := by
  have hid : (fun q => if q = p then st p else st q) = st := by
    funext q
    by_cases h : q = p
    · rw [if_pos h, h]
    · rw [if_neg h]
  by_cases hdel : action = "--delete"
  · by_cases hre : re p
    · simp [applyAction, outcomeOfFile, opsOfFile, postPresence, hdel, hre, hid]
    · simp [applyAction, outcomeOfFile, opsOfFile, postPresence, hdel, hre]
  · by_cases hln : action = "--hardlink"
    · by_cases hre : re p
      · simp [applyAction, outcomeOfFile, opsOfFile, postPresence, hdel, hln, hre, hid]
      · by_cases hle : le p
        · simp [applyAction, outcomeOfFile, opsOfFile, postPresence, hdel, hln, hre, hle]
        · simp [applyAction, outcomeOfFile, opsOfFile, postPresence, hdel, hln, hre, hle]
    · simp [applyAction, outcomeOfFile, opsOfFile, postPresence, hdel, hln, hid]

theorem processFold_eq (re le : String → Bool) (action orig : String) :
    ∀ (rest : List String) (acc : List FileAction × FsSt × List FsOp),
      rest.foldl
        (fun (acc : List FileAction × FsSt × List FsOp) p =>
          let a := applyAction re le action orig acc.2.1 p
          (acc.1 ++ [⟨p, a.1⟩], a.2.1, acc.2.2 ++ a.2.2)) acc
      = (acc.1 ++ rest.map (fun p => ⟨p, outcomeOfFile re le action p⟩),
         stateAfter re le action rest acc.2.1,
         acc.2.2 ++ rest.flatMap (opsOfFile re le action orig)) := by
  intro rest
  induction rest with
  | nil => intro acc; simp [stateAfter]
  | cons p r ih =>
    intro acc
    rw [List.foldl_cons, ih]
    rw [applyAction_eq]
    simp only [stateAfter, List.foldl_cons, List.map_cons, List.flatMap_cons,
      List.append_assoc, List.singleton_append]

theorem stateAfter_eq (re le : String → Bool) (action : String) :
    ∀ (rest : List String), rest.Nodup → ∀ (st : FsSt) (q : String),
      stateAfter re le action rest st q
        = if q ∈ rest then postPresence re le action q (st q) else st q := by
  intro rest
  induction rest with
  | nil => intro _ st q; simp [stateAfter]
  | cons p r ih =>
    intro hnd st q
    rw [List.nodup_cons] at hnd
    show stateAfter re le action r _ q = _
    rw [ih hnd.2 _ q]
    show (if q ∈ r then postPresence re le action q
          (if q = p then postPresence re le action p (st p) else st q)
        else (if q = p then postPresence re le action p (st p) else st q))
      = if q ∈ p :: r then postPresence re le action q (st q) else st q
    by_cases hq : q ∈ r
    · have hqp : ¬q = p := fun e => hnd.1 (e ▸ hq)
      rw [if_pos hq, if_neg hqp, if_pos (List.mem_cons_of_mem _ hq)]
    · by_cases hqp : q = p
      · rw [if_neg hq, if_pos hqp, if_pos (hqp ▸ List.mem_cons_self p r), hqp]
      · rw [if_neg hq, if_neg hqp,
          if_neg (fun hc => (List.mem_cons.mp hc).elim hqp hq)]

/-- Full characterisation of one group's processing: the report lists the
non-front members in order with state-independent outcomes, the mutation
attempts are the per-file attempts concatenated, and the state is the
sequential per-path update. -/
theorem processSorted_eq (re le : String → Bool) (action hash orig : String)
    (rest : List String) (st : FsSt) :
    processSorted re le action hash (orig :: rest) st
      = (⟨hash, orig, rest.map (fun p => ⟨p, outcomeOfFile re le action p⟩)⟩,
         stateAfter re le action rest st,
         rest.flatMap (opsOfFile re le action orig)) := by
  show (let r := rest.foldl _ ([], st, []);
    ((⟨hash, orig, r.1⟩ : GroupReport), r.2.1, r.2.2)) = _
  rw [processFold_eq]
  simp

theorem opsOfFile_target (re le : String → Bool) (action orig p : String) :
    ∀ op ∈ opsOfFile re le action orig p, FsOp.target op = p := by
  intro op hop
  rw [opsOfFile] at hop
  split at hop
  · simp only [List.mem_singleton] at hop
    rw [hop, FsOp.target]
  · split at hop
    · split at hop
      · simp only [List.mem_singleton] at hop
        rw [hop, FsOp.target]
      · rcases List.mem_cons.mp hop with h | h
        · rw [h, FsOp.target]
        · simp only [List.mem_singleton] at h
          rw [h, FsOp.target]
    · simp at hop

/-! ## Propagation of the `last_write_time` exception -/

theorem mtimesOf_eq_none {mt : String → Option Nat} :
    ∀ {l : List String}, (∃ p ∈ l, mt p = none) → mtimesOf mt l = none := by
  intro l
  induction l with
  | nil => rintro ⟨p, hp, _⟩; exact absurd hp (List.not_mem_nil p)
  | cons q rest ih =>
    rintro ⟨p, hp, hnone⟩
    rw [mtimesOf]
    rcases List.mem_cons.mp hp with h | h
    · have hq : mt q = none := h ▸ hnone
      rw [hq]
    · rcases hmq : mt q with _ | t
      · rfl
      · rw [ih ⟨p, h, hnone⟩]

theorem mtimesOf_isSome {mt : String → Option Nat} :
    ∀ {l : List String}, (∀ p ∈ l, (mt p).isSome) →
      ∃ ts, mtimesOf mt l = some ts := by
  intro l
  induction l with
  | nil => intro _; exact ⟨[], rfl⟩
  | cons q rest ih =>
    intro h
    rcases hmq : mt q with _ | t
    · have := h q (List.mem_cons_self q rest)
      rw [hmq] at this
      simp at this
    · rcases ih (fun p hp => h p (List.mem_cons_of_mem _ hp)) with ⟨ts, hts⟩
      exact ⟨t :: ts, by rw [mtimesOf, hmq, hts]⟩

/-- If any member of any group has an unreadable modification time, the
`std::sort` comparator throws, nothing catches it inside
`handle_duplicates`, and the whole call ends in an error. -/
theorem handle_duplicates_err (mt : String → Option Nat) (re le : String → Bool)
    (action : String) :
    ∀ (groups : List (String × List FileInfo)) (st : FsSt),
      (∃ g ∈ groups, ∃ f ∈ g.2, mt f.path = none) →
      isErr (handle_duplicates mt re le action groups st) = true := by
  intro groups
  induction groups with
  | nil => rintro st ⟨g, hg, _⟩; exact absurd hg (List.not_mem_nil g)
  | cons gr rest ih =>
    rintro st ⟨g, hg, f, hf, hnone⟩
    rcases gr with ⟨h, fl⟩
    rw [handle_duplicates]
    rcases List.mem_cons.mp hg with hcase | hcase
    · have hbad : ∃ p ∈ fl.map FileInfo.path, mt p = none := by
        refine ⟨f.path, ?_, hnone⟩
        have : f ∈ fl := by rw [hcase] at hf; exact hf
        exact List.mem_map_of_mem FileInfo.path this
      rw [mtimesOf_eq_none hbad]
      rfl
    · rcases hmt : mtimesOf mt (fl.map FileInfo.path) with _ | ts
      · rfl
      · have hrec := ih ((processSorted re le action h
          (sortByMt (fun p => (mt p).getD 0) (fl.map FileInfo.path)) st).2.1)
          ⟨g, hcase, f, hf, hnone⟩
        rcases hres : handle_duplicates mt re le action rest (processSorted re le action h
          (sortByMt (fun p => (mt p).getD 0) (fl.map FileInfo.path)) st).2.1 with e | t
        · rfl
        · rw [hres] at hrec
          simp [isErr] at hrec

/-- If every member of every group has a readable modification time, every
sort succeeds and `handle_duplicates` completes — action failures
(`re`/`le`) are caught per file and never abort the batch. -/
theorem handle_duplicates_ok (mt : String → Option Nat) (re le : String → Bool)
    (action : String) :
    ∀ (groups : List (String × List FileInfo)) (st : FsSt),
      (∀ g ∈ groups, ∀ f ∈ g.2, (mt f.path).isSome) →
      isErr (handle_duplicates mt re le action groups st) = false := by
  intro groups
  induction groups with
  | nil => intro st _; rfl
  | cons gr rest ih =>
    intro st hall
    rcases gr with ⟨h, fl⟩
    rw [handle_duplicates]
    have hsome : ∀ p ∈ fl.map FileInfo.path, (mt p).isSome := by
      intro p hp
      rcases List.mem_map.mp hp with ⟨f, hf, hfp⟩
      exact hfp ▸ hall (h, fl) (List.mem_cons_self _ rest) f hf
    rcases mtimesOf_isSome hsome with ⟨ts, hts⟩
    rw [hts]
    have hrec := ih ((processSorted re le action h
      (sortByMt (fun p => (mt p).getD 0) (fl.map FileInfo.path)) st).2.1)
      (fun g hg => hall g (List.mem_cons_of_mem _ hg))
    rcases hres : handle_duplicates mt re le action rest (processSorted re le action h
      (sortByMt (fun p => (mt p).getD 0) (fl.map FileInfo.path)) st).2.1 with e | t
    · rw [hres] at hrec
      simp [isErr] at hrec
    · rfl

/-! ## Unknown actions are list mode -/

theorem applyAction_unknown {action : String} (h1 : action ≠ "--delete")
    (h2 : action ≠ "--hardlink") (re le : String → Bool) (orig : String)
    (st : FsSt) (p : String) :
    applyAction re le action orig st p = (Outcome.listed, st, []) := by
  rw [applyAction, if_neg h1, if_neg h2]

theorem processSorted_unknown (action : String) (h1 : action ≠ "--delete")
    (h2 : action ≠ "--hardlink") (re le : String → Bool) (hash : String) :
    ∀ (sorted : List String) (st : FsSt),
      processSorted re le action hash sorted st
        = processSorted re le "--list" hash sorted st ∧
      (processSorted re le action hash sorted st).2.1 = st ∧
      (processSorted re le action hash sorted st).2.2 = [] := by
  have hfold : ∀ (rest : List String) (orig : String) (st : FsSt)
      (acts : List FileAction) (ops : List FsOp),
      rest.foldl
        (fun (acc : List FileAction × FsSt × List FsOp) p =>
          let a := applyAction re le action orig acc.2.1 p
          (acc.1 ++ [⟨p, a.1⟩], a.2.1, acc.2.2 ++ a.2.2)) (acts, st, ops)
      = rest.foldl
        (fun (acc : List FileAction × FsSt × List FsOp) p =>
          let a := applyAction re le "--list" orig acc.2.1 p
          (acc.1 ++ [⟨p, a.1⟩], a.2.1, acc.2.2 ++ a.2.2)) (acts, st, ops) ∧
      (rest.foldl
        (fun (acc : List FileAction × FsSt × List FsOp) p =>
          let a := applyAction re le action orig acc.2.1 p
          (acc.1 ++ [⟨p, a.1⟩], a.2.1, acc.2.2 ++ a.2.2)) (acts, st, ops)).2.1 = st ∧
      (rest.foldl
        (fun (acc : List FileAction × FsSt × List FsOp) p =>
          let a := applyAction re le action orig acc.2.1 p
          (acc.1 ++ [⟨p, a.1⟩], a.2.1, acc.2.2 ++ a.2.2)) (acts, st, ops)).2.2 = ops := by
    intro rest
    induction rest with
    | nil => intro orig st acts ops; exact ⟨rfl, rfl, rfl⟩
    | cons p r ihr =>
      intro orig st acts ops
      rw [List.foldl_cons, List.foldl_cons]
      rw [applyAction_unknown h1 h2,
        applyAction_unknown (by decide) (by decide) re le orig st p]
      simp only [List.append_nil]
      exact ihr orig st (acts ++ [⟨p, Outcome.listed⟩]) ops
  intro sorted st
  cases sorted with
  | nil => exact ⟨rfl, rfl, rfl⟩
  | cons orig rest =>
    have hf := hfold rest orig st [] []
    refine ⟨?_, ?_, ?_⟩
    · simp only [processSorted]
      rw [hf.1]
    · simp only [processSorted]
      exact hf.2.1
    · simp only [processSorted]
      exact hf.2.2

/-! ## Minimality of the front of a sorted range -/

theorem sortedByMt_head_min (mt : String → Nat) :
    ∀ {a : String} {rest : List String}, sortedByMt mt (a :: rest) = true →
      ∀ p ∈ rest, mt a ≤ mt p := by
  intro a rest
  induction rest generalizing a with
  | nil => intro _ p hp; exact absurd hp (List.not_mem_nil p)
  | cons b r ih =>
    intro hs p hp
    rw [sortedByMt, Bool.and_eq_true, decide_eq_true_eq] at hs
    rcases List.mem_cons.mp hp with h | h
    · exact h ▸ hs.1
    · exact le_trans hs.1 (ih hs.2 p h)

theorem insertByMt_perm (mt : String → Nat) (p : String) :
    ∀ l : List String, (insertByMt mt p l).Perm (p :: l) := by
  intro l
  induction l with
  | nil => exact List.Perm.refl _
  | cons q rest ih =>
    rw [insertByMt]
    split
    · exact (ih.cons q).trans (List.Perm.swap p q rest)
    · exact List.Perm.refl _

theorem sortedByMt_insertByMt (mt : String → Nat) (p : String) :
    ∀ l : List String, sortedByMt mt l = true →
      sortedByMt mt (insertByMt mt p l) = true := by
  intro l
  induction l with
  | nil => intro _; rfl
  | cons q rest ih =>
    intro hl
    rw [insertByMt]
    split
    · next hqp =>
      cases rest with
      | nil =>
        show (decide (mt q ≤ mt p) && sortedByMt mt [p]) = true
        rw [Bool.and_eq_true, decide_eq_true_eq]
        exact ⟨hqp, rfl⟩
      | cons r rs =>
        rw [sortedByMt, Bool.and_eq_true, decide_eq_true_eq] at hl
        have htail := ih hl.2
        rw [insertByMt] at htail ⊢
        split
        · next hrp =>
          rw [if_pos hrp] at htail
          rw [sortedByMt, Bool.and_eq_true, decide_eq_true_eq]
          exact ⟨hl.1, htail⟩
        · next hrp =>
          rw [sortedByMt, Bool.and_eq_true, decide_eq_true_eq]
          refine ⟨hqp, ?_⟩
          rw [sortedByMt, Bool.and_eq_true, decide_eq_true_eq]
          exact ⟨le_of_not_le hrp, hl.2⟩
    · next hqp =>
      rw [sortedByMt, Bool.and_eq_true, decide_eq_true_eq]
      exact ⟨le_of_not_le hqp, hl⟩

/-- The insertion sort `sortByMt` is one conforming behaviour of the
`std::sort` call: it yields a sorted permutation. -/
theorem sortByMt_isSortOutcome (mt : String → Nat) (l : List String) :
    IsSortOutcome mt l (sortByMt mt l) := by
  have hmain : ∀ (l : List String) (acc : List String), sortedByMt mt acc = true →
      (l.foldl (fun acc p => insertByMt mt p acc) acc).Perm (acc ++ l) ∧
      sortedByMt mt (l.foldl (fun acc p => insertByMt mt p acc) acc) = true := by
    intro l
    induction l with
    | nil =>
      intro acc hacc
      exact ⟨by simp, hacc⟩
    | cons p r ih =>
      intro acc hacc
      rw [List.foldl_cons]
      have hstep := ih (insertByMt mt p acc) (sortedByMt_insertByMt mt p acc hacc)
      refine ⟨?_, hstep.2⟩
      have h1 : (insertByMt mt p acc ++ r).Perm ((p :: acc) ++ r) :=
        (insertByMt_perm mt p acc).append_right r
      have h2 : ((p :: acc) ++ r).Perm (acc ++ p :: r) := by
        rw [List.cons_append]
        exact List.perm_middle.symm
      exact hstep.1.trans (h1.trans h2)
  have h := hmain l [] rfl
  exact ⟨by simpa using h.1, h.2⟩

/-! ## Order-independence of the duplicates map

The C++ `size_groups` map is iterated in unspecified order.  Each size
bucket writes its emitted hash groups into the shared `duplicates` map
keyed by digest; because a digest's length prefix pins down the bucket it
came from (when the cataloged sizes agree with the content lengths), no
two distinct buckets ever write the same key, so the final key→group
association does not depend on the bucket iteration order. -/

theorem alGet_mem {q : String} {v : List FileInfo} :
    ∀ {m : List (String × List FileInfo)}, alGet q m = some v → (q, v) ∈ m := by
  intro m
  induction m with
  | nil => intro h; exact absurd h (by rw [alGet]; simp)
  | cons kv rest ih =>
    intro h
    rw [alGet] at h
    split at h
    · next heq =>
      rcases kv with ⟨k', v'⟩
      have hv : v' = v := by injection h
      have hk : k' = q := heq
      rw [← hk, ← hv]
      exact List.mem_cons_self _ _
    · exact List.mem_cons_of_mem _ (ih h)

theorem alGet_find_duplicates_fold (stdHash : List Nat → Nat)
    (fs : String → Option (List Nat)) (files : List FileInfo) :
    ∀ (order : List Nat) (d : List (String × List FileInfo)) (q : String),
      alGet q (order.foldl
        (fun dups s => applyWrites dups (sizeWrites stdHash fs files s)) d)
      = order.foldl (fun g s => writeStep stdHash fs files s g)
          (fun h => alGet h d) q := by
  intro order
  induction order with
  | nil => intro d q; rfl
  | cons s rest ih =>
    intro d q
    rw [List.foldl_cons, List.foldl_cons, ih]
    have hstep : (fun h => alGet h (applyWrites d (sizeWrites stdHash fs files s)))
        = writeStep stdHash fs files s (fun h => alGet h d) := by
      funext h
      rw [writeStep, alGet_applyWrites _ (sizeWrites_keys_nodup stdHash fs files s) d h]
    rw [hstep]

/-- Under a consistent catalog, a key written by the size-`s` bucket has
`Nat.repr s` as its length prefix — the key pins down its bucket. -/
theorem sizeWrites_key_shape {stdHash : List Nat → Nat}
    {fs : String → Option (List Nat)} {files : List FileInfo} {s : Nat} {q : String}
    {v : List FileInfo} (hcons : Consistent fs files)
    (h : alGet q (sizeWrites stdHash fs files s) = some v) :
    ∃ x, q = Nat.repr s ++ "_" ++ Nat.repr x := by
  have hmem := alGet_mem h
  have hwf := sizeWrites_mem hmem
  rcases hv : v with _ | ⟨a, tl⟩
  · rw [hv] at hwf; simp at hwf
  · have ha : a ∈ v := hv ▸ List.mem_cons_self a tl
    have hok := hwf.2 a ha
    rcases hok with ⟨_, _, hgen, f, hfmem, hfpath, hfsize⟩
    rw [generate_file_hash] at hgen
    rcases hfs : fs a.path with _ | c
    · rw [hfs] at hgen; exact absurd hgen (by simp)
    · rw [hfs] at hgen
      have hq : q = Nat.repr c.length ++ "_" ++ Nat.repr (stdHash c) := by
        injection hgen with hgen'
        exact hgen'.symm
      have hlen : c.length = s := by
        have := hcons f hfmem c (hfpath ▸ hfs)
        omega
      exact ⟨stdHash c, hlen ▸ hq⟩

theorem writeStep_comm {stdHash : List Nat → Nat} {fs : String → Option (List Nat)}
    {files : List FileInfo} (hcons : Consistent fs files) (s1 s2 : Nat)
    (g : String → Option (List FileInfo)) :
    writeStep stdHash fs files s1 (writeStep stdHash fs files s2 g)
      = writeStep stdHash fs files s2 (writeStep stdHash fs files s1 g) := by
  funext q
  rw [writeStep, writeStep, writeStep, writeStep]
  rcases h1 : alGet q (sizeWrites stdHash fs files s1) with _ | v1 <;>
    rcases h2 : alGet q (sizeWrites stdHash fs files s2) with _ | v2
  · rfl
  · rfl
  · rfl
  · rcases sizeWrites_key_shape hcons h1 with ⟨x1, hx1⟩
    rcases sizeWrites_key_shape hcons h2 with ⟨x2, hx2⟩
    have hs : s1 = s2 := digest_length_inj (hx1 ▸ hx2)
    rw [hs] at h1
    rw [h1] at h2
    injection h2 with h2'
    rw [h2']

theorem foldl_writeStep_perm {stdHash : List Nat → Nat}
    {fs : String → Option (List Nat)} {files : List FileInfo}
    (hcons : Consistent fs files) {order1 order2 : List Nat}
    (hperm : order1.Perm order2) :
    ∀ (g : String → Option (List FileInfo)) (q : String),
      order1.foldl (fun g s => writeStep stdHash fs files s g) g q
        = order2.foldl (fun g s => writeStep stdHash fs files s g) g q := by
  induction hperm with
  | nil => intro g q; rfl
  | cons x _ ih =>
    intro g q
    rw [List.foldl_cons, List.foldl_cons]
    exact ih _ q
  | swap x y l =>
    intro g q
    rw [List.foldl_cons, List.foldl_cons, List.foldl_cons, List.foldl_cons,
      writeStep_comm hcons]
  | trans _ _ ih1 ih2 =>
    intro g q
    rw [ih1, ih2]

/-! ## Claims -/

/-- C2 counterexample: the claim that one unreadable/permission-denied
directory entry only loses that entry is false — an entry on which the
iterator itself throws is caught by the catch *outside* the loop of
`find_files` (src/dedup.c++ lines 52-54), which ends the walk: the
regular file `g`, reachable after the failing entry, does not appear in
the catalog. -/
theorem C2_counterexample :
    ¬ ∀ (events : List DirEvent) (p : String) (s : Nat),
        DirEvent.file p (some s) ∈ events →
        (⟨p, s, ""⟩ : FileInfo) ∈ (find_files events).1 := by
  intro hclaim
  exact absurd
    (hclaim [DirEvent.iterError, DirEvent.file "g" (some 3)] "g" 3 (by decide))
    (by decide)

/-- C2 (amended): a failure to read one entry's *size* is skipped with a
warning and costs only that entry; but in a walk free of iterator-level
failures — and only then — the catalog is exactly the readable regular
files, in order.  (An `iterError` truncates the rest of the walk, as the
counterexample above shows.) -/
theorem C2_amended (events : List DirEvent) (hok : DirEvent.iterError ∉ events) :
    (find_files events).1 = events.filterMap (fun e =>
      match e with
      | DirEvent.file p (some s) => some ⟨p, s, ""⟩
      | _ => none) := by
  induction events with
  | nil => rfl
  | cons e rest ih =>
    have hrest : DirEvent.iterError ∉ rest := fun hc => hok (List.mem_cons_of_mem _ hc)
    cases e with
    | file p os =>
      cases os with
      | some s =>
        simp only [find_files, List.filterMap_cons]
        rw [ih hrest]
      | none =>
        simp only [find_files, List.filterMap_cons]
        exact ih hrest
    | other =>
      simp only [find_files, List.filterMap_cons]
      exact ih hrest
    | iterError => exact absurd (List.mem_cons_self _ _) hok

/-- C2 witness: a walk with one size-read failure (`bad`) still catalogs
`a` and `c`. -/
theorem C2_witness :
    (find_files eventsSkipEx).1 = eventsSkipEx.filterMap (fun e =>
      match e with
      | DirEvent.file p (some s) => some ⟨p, s, ""⟩
      | _ => none) :=
  C2_amended eventsSkipEx (by decide)

/-- C4: every group the engine emits — for any iteration order of the size
map — has 2+ members, pairwise-equal recorded sizes and recorded hashes,
and every member's content digest is the group's digest. -/
theorem C4_group_invariant (stdHash : List Nat → Nat) (fs : String → Option (List Nat))
    (order : List Nat) (files : List FileInfo) (h : String) (fl : List FileInfo)
    (hmem : (h, fl) ∈ find_duplicates stdHash fs order files) :
    2 ≤ fl.length ∧
    (∀ a ∈ fl, ∀ b ∈ fl, a.size = b.size ∧ a.hash = b.hash) ∧
    (∀ a ∈ fl, generate_file_hash stdHash fs a.path = some h) := by
  rcases find_duplicates_mem hmem with ⟨hlen, s, hall⟩
  refine ⟨hlen, ?_, ?_⟩
  · intro a ha b hb
    have h1 := hall a ha
    have h2 := hall b hb
    exact ⟨h1.2.1.trans h2.2.1.symm, h1.1.trans h2.1.symm⟩
  · intro a ha
    exact (hall a ha).2.2.1

/-- C4 witness: in the concrete world the one emitted group has the stated
shape. -/
theorem C4_witness :
    2 ≤ ([⟨"a", 1, "1_5"⟩, ⟨"b", 1, "1_5"⟩] : List FileInfo).length ∧
    (⟨"a", 1, "1_5"⟩ : FileInfo).size = (⟨"b", 1, "1_5"⟩ : FileInfo).size ∧
    generate_file_hash stdHashEx fsEx "a" = some "1_5" :=
  have h := C4_group_invariant stdHashEx fsEx (sizesOf filesEx) filesEx "1_5"
    [⟨"a", 1, "1_5"⟩, ⟨"b", 1, "1_5"⟩] (by decide)
  ⟨h.1, (h.2.1 ⟨"a", 1, "1_5"⟩ (by decide) ⟨"b", 1, "1_5"⟩ (by decide)).1,
    h.2.2 ⟨"a", 1, "1_5"⟩ (by decide)⟩

/-- C5: files of distinct sizes are never in the same emitted group (every
group's members come from one size bucket), and — because the digest
embeds the content length before the `'_'` and decimal digits contain no
`'_'` — contents of different lengths can never be digest-equal. -/
theorem C5_size_separation (stdHash : List Nat → Nat) (fs : String → Option (List Nat))
    (order : List Nat) (files : List FileInfo) :
    (∀ g ∈ find_duplicates stdHash fs order files, ∀ a b : FileInfo,
      a.size ≠ b.size → ¬(a ∈ g.2 ∧ b ∈ g.2)) ∧
    (∀ (p q : String) (c d : List Nat), fs p = some c → fs q = some d →
      c.length ≠ d.length →
      generate_file_hash stdHash fs p ≠ generate_file_hash stdHash fs q) := by
  constructor
  · intro g hg a b hne hmem
    rcases find_duplicates_mem hg with ⟨_, s, hall⟩
    exact hne ((hall a hmem.1).2.1.trans ((hall b hmem.2).2.1).symm)
  · intro p q c d hc hd hne hcontra
    rw [generate_file_hash, generate_file_hash, hc, hd] at hcontra
    injection hcontra with hcontra'
    exact hne (digest_length_inj hcontra')

/-- C5 witness: the size-1 file `a` and the size-2 file `c` are not both in
the emitted group, and their digests differ. -/
theorem C5_witness :
    ¬((⟨"c", 2, "x"⟩ : FileInfo) ∈ [(⟨"a", 1, "1_5"⟩ : FileInfo), ⟨"b", 1, "1_5"⟩] ∧
      (⟨"a", 1, "1_5"⟩ : FileInfo) ∈ [(⟨"a", 1, "1_5"⟩ : FileInfo), ⟨"b", 1, "1_5"⟩]) ∧
    generate_file_hash stdHashEx fsEx "a" ≠ generate_file_hash stdHashEx fsEx "c" :=
  have h := C5_size_separation stdHashEx fsEx (sizesOf filesEx) filesEx
  ⟨h.1 ("1_5", [⟨"a", 1, "1_5"⟩, ⟨"b", 1, "1_5"⟩]) (by decide)
      ⟨"c", 2, "x"⟩ ⟨"a", 1, "1_5"⟩ (by decide),
    h.2 "a" "c" [5] [8, 9] rfl rfl (by decide)⟩

/-- C1 counterexample: the claim says a failed modification-time read is
contained — the member is deprioritised, a warning is reported, and the
group and the rest of the run complete.  In the code the comparator's
`fs::last_write_time` throw is caught nowhere inside `handle_duplicates`
(src/dedup.c++ lines 111-114): with `b`'s time unreadable the whole call
errors out instead of completing, and the run exits 1 — the failure is
fatal, contradicting the claim at this concrete input. -/
theorem C1_counterexample :
    mtBadEx "b" = none ∧
    isErr (handle_duplicates mtBadEx reNone leNone "--list" groupsEx stAll) = true ∧
    (main_run stdHashEx fsEx mtBadEx reNone leNone ["root"] true eventsEx stAll).exit
      = 1 := by
  refine ⟨rfl, by decide, by decide⟩

/-- C1 (amended): if reading the modification time of any member of any
emitted duplicate group fails, the exception escapes `handle_duplicates`
(no report is produced) and `main`'s top-level catch turns it into exit
status 1 — the failure is fatal to the rest of the run. -/
theorem C1_amended_fatal (stdHash : List Nat → Nat) (fs : String → Option (List Nat))
    (mt : String → Option Nat) (re le : String → Bool) (args : List String)
    (events : List DirEvent) (st : FsSt) (hargs : args ≠ [])
    (hbad : ∃ g ∈ find_duplicates_run stdHash fs (find_files events).1,
      ∃ f ∈ g.2, mt f.path = none) :
    isErr (handle_duplicates mt re le ((args.drop 1).headD "--list")
      (find_duplicates_run stdHash fs (find_files events).1) st) = true ∧
    (main_run stdHash fs mt re le args true events st).exit = 1 := by
  have herr := handle_duplicates_err mt re le ((args.drop 1).headD "--list")
    (find_duplicates_run stdHash fs (find_files events).1) st hbad
  refine ⟨herr, ?_⟩
  have hlen : ¬args.length < 1 := by
    cases args with
    | nil => exact absurd rfl hargs
    | cons a l => simp
  have hdups : ¬find_duplicates_run stdHash fs (find_files events).1 = [] := by
    intro hnil
    rcases hbad with ⟨g, hg, _⟩
    rw [hnil] at hg
    exact absurd hg (List.not_mem_nil g)
  rw [main_run, if_neg hlen, if_neg (by simp : ¬(true = false)), if_neg hdups]
  rcases hh : handle_duplicates mt re le ((args.drop 1).headD "--list")
    (find_duplicates_run stdHash fs (find_files events).1) st with e | t
  · rfl
  · rw [hh] at herr
    simp [isErr] at herr

/-- C1 witness: the amended behaviour at the concrete world where `b`'s
modification time is unreadable. -/
theorem C1_witness :
    isErr (handle_duplicates mtBadEx reNone leNone "--list"
      (find_duplicates_run stdHashEx fsEx (find_files eventsEx).1) stAll) = true ∧
    (main_run stdHashEx fsEx mtBadEx reNone leNone ["root"] true eventsEx stAll).exit
      = 1 :=
  C1_amended_fatal stdHashEx fsEx mtBadEx reNone leNone ["root"] eventsEx stAll
    (by decide) (by decide)

/-- C3 counterexample: the claim promises a deterministic, stable
tie-break — with equal modification times the first-seen member is kept.
`std::sort` guarantees only a sorted permutation (it is not stable): with
`a` first-seen and all times equal, `["b", "a"]` is a conforming sort
outcome (`IsSortOutcome`), and processing it keeps `b`, not the
first-seen `a`. -/
theorem C3_counterexample :
    ¬ ∀ (out : List String), IsSortOutcome mtFlat ["a", "b"] out →
        (processSorted reNone leNone "--list" "h" out stAll).1.original = "a" := by
  intro hclaim
  have h := hclaim ["b", "a"] ⟨by decide, by decide⟩
  revert h
  decide

/-- C3 (amended): for every conforming outcome of the `std::sort` call, the
kept member is a group member with minimal (oldest) modification time; in
particular, when the oldest time is unique the kept member is that one.
Which member is kept among several sharing the oldest time is not
specified. -/
theorem C3_amended (mt : String → Nat) (l : List String) (re le : String → Bool)
    (action hash : String) (st : FsSt) (orig : String) (rest : List String)
    (hsort : IsSortOutcome mt l (orig :: rest)) :
    orig ∈ l ∧ (∀ p ∈ l, mt orig ≤ mt p) ∧
    (processSorted re le action hash (orig :: rest) st).1.original = orig := by
  refine ⟨hsort.1.mem_iff.mp (List.mem_cons_self orig rest), ?_, ?_⟩
  · intro p hp
    rcases List.mem_cons.mp (hsort.1.mem_iff.mpr hp) with h | h
    · exact h ▸ le_rfl
    · exact sortedByMt_head_min mt hsort.2 p h
  · rw [processSorted_eq]

/-- C3 witness: with `b` strictly older than `a`, the conforming outcome
`["b", "a"]` keeps `b`, the unique oldest member. -/
theorem C3_witness :
    "b" ∈ ["a", "b"] ∧ mtW "b" ≤ mtW "a" ∧
    (processSorted reNone leNone "--list" "h" ["b", "a"] stAll).1.original = "b" :=
  have h := C3_amended mtW ["a", "b"] reNone leNone "--list" "h" stAll "b" ["a"]
    ⟨by decide, by decide⟩
  ⟨h.1, h.2.1 "a" (by decide), h.2.2⟩

/-- C6: for any action mode and any conforming sorted order with distinct
paths, no mutation attempt ever targets the kept (front) member, its
presence is untouched, and it is the reported original. -/
theorem C6_kept_untouched (re le : String → Bool) (action hash orig : String)
    (rest : List String) (st : FsSt) (hnd : (orig :: rest).Nodup) :
    (∀ op ∈ (processSorted re le action hash (orig :: rest) st).2.2,
      FsOp.target op ≠ orig) ∧
    (processSorted re le action hash (orig :: rest) st).2.1 orig = st orig ∧
    (processSorted re le action hash (orig :: rest) st).1.original = orig := by
  rw [List.nodup_cons] at hnd
  rw [processSorted_eq]
  refine ⟨?_, ?_, rfl⟩
  · intro op hop
    simp only [List.mem_flatMap] at hop
    rcases hop with ⟨p, hp, hop'⟩
    rw [opsOfFile_target re le action orig p op hop']
    intro he
    exact hnd.1 (he ▸ hp)
  · show stateAfter re le action rest st orig = st orig
    rw [stateAfter_eq re le action rest hnd.2 st orig, if_neg hnd.1]

/-- C6 witness: hardlink mode over group `["a", "b"]` leaves `a` present
and reports it as the original. -/
theorem C6_witness :
    (processSorted reNone leNone "--hardlink" "h" ["a", "b"] stAll).2.1 "a"
      = stAll "a" ∧
    (processSorted reNone leNone "--hardlink" "h" ["a", "b"] stAll).1.original
      = "a" :=
  have h := C6_kept_untouched reNone leNone "--hardlink" "h" "a" ["b"] stAll (by decide)
  ⟨h.2.1, h.2.2⟩

/-- C7: in hardlink mode a superseded file is handled by `remove` then
`create_hard_link` at the same path; when the remove succeeds and the link
throws, the reported outcome is `hardlinkFailed` (distinct from the clean
`linked`), the path is left with no directory entry, the remaining
superseded files are still all processed, and — since action failures are
caught per file — later groups are still processed whenever every
modification time is readable. -/
theorem C7_partial_failure (re le : String → Bool) (hash orig : String)
    (rest : List String) (st : FsSt) (p : String) (hnd : (orig :: rest).Nodup)
    (hp : p ∈ rest) (hre : re p = false) (hle : le p = true) :
    (⟨p, Outcome.hardlinkFailed⟩ : FileAction) ∈
      (processSorted re le "--hardlink" hash (orig :: rest) st).1.actions ∧
    (processSorted re le "--hardlink" hash (orig :: rest) st).2.1 p = false ∧
    opsOfFile re le "--hardlink" orig p = [FsOp.remove p, FsOp.link p orig] ∧
    (processSorted re le "--hardlink" hash (orig :: rest) st).1.actions.map
      FileAction.path = rest ∧
    Outcome.hardlinkFailed ≠ Outcome.linked ∧
    ∀ (mt : String → Option Nat) (groups : List (String × List FileInfo)) (st' : FsSt),
      (∀ g ∈ groups, ∀ f ∈ g.2, (mt f.path).isSome) →
      isErr (handle_duplicates mt re le "--hardlink" groups st') = false := by
  rw [List.nodup_cons] at hnd
  rw [processSorted_eq]
  refine ⟨?_, ?_, ?_, ?_, by decide, ?_⟩
  · refine List.mem_map.mpr ⟨p, hp, ?_⟩
    simp [outcomeOfFile, hre, hle]
  · show stateAfter re le "--hardlink" rest st p = false
    rw [stateAfter_eq re le "--hardlink" rest hnd.2 st p, if_pos hp]
    simp [postPresence, hre, hle]
  · simp [opsOfFile, hre]
  · rw [List.map_map]
    have : (FileAction.path ∘ fun q => (⟨q, outcomeOfFile re le "--hardlink" q⟩ : FileAction))
        = fun q => q := rfl
    rw [this, List.map_id']
  · intro mt groups st' hall
    exact handle_duplicates_ok mt re le "--hardlink" groups st' hall

/-- C7 witness: in the concrete world every link call throws; `b` ends up
reported `hardlinkFailed`, absent from the filesystem, and a full batch
with readable times still completes. -/
theorem C7_witness :
    (⟨"b", Outcome.hardlinkFailed⟩ : FileAction) ∈
      (processSorted reNone leAll "--hardlink" "h" ["a", "b"] stAll).1.actions ∧
    (processSorted reNone leAll "--hardlink" "h" ["a", "b"] stAll).2.1 "b" = false ∧
    isErr (handle_duplicates mtEx reNone leAll "--hardlink" groupsEx stAll) = false :=
  have h := C7_partial_failure reNone leAll "h" "a" ["b"] stAll "b"
    (by decide) (by decide) rfl rfl
  ⟨h.1, h.2.1, h.2.2.2.2.2 mtEx groupsEx stAll (by decide)⟩

/-- C8: the exit status is 0 or 1; it is 1 exactly when the root argument
is missing, the root is invalid, or the one possible top-level exception
(the modification-time throw out of `handle_duplicates`) occurs; per-file
errors (unreadable entries in `events`, unhashable files in `fs`, failing
actions `re`/`le`) never affect it.  With a missing or invalid root the
scanning phase is never reached. -/
theorem C8_exit_status (stdHash : List Nat → Nat) (fs : String → Option (List Nat))
    (mt : String → Option Nat) (re le : String → Bool) (args : List String)
    (rootValid : Bool) (events : List DirEvent) (st : FsSt) :
    ((main_run stdHash fs mt re le args rootValid events st).exit = 0 ∨
     (main_run stdHash fs mt re le args rootValid events st).exit = 1) ∧
    ((main_run stdHash fs mt re le args rootValid events st).exit = 1 ↔
      (args = [] ∨ rootValid = false ∨
        (find_duplicates_run stdHash fs (find_files events).1 ≠ [] ∧
         isErr (handle_duplicates mt re le ((args.drop 1).headD "--list")
           (find_duplicates_run stdHash fs (find_files events).1) st) = true))) ∧
    ((args = [] ∨ rootValid = false) →
      (main_run stdHash fs mt re le args rootValid events st).scanned = none) := by
  have hargs_iff : args.length < 1 ↔ args = [] := by
    cases args <;> simp
  rw [main_run]
  by_cases ha : args.length < 1
  · rw [if_pos ha]
    exact ⟨Or.inr rfl, ⟨fun _ => Or.inl (hargs_iff.mp ha), fun _ => rfl⟩, fun _ => rfl⟩
  · rw [if_neg ha]
    have hne : ¬args = [] := fun e => ha (hargs_iff.mpr e)
    by_cases hb : rootValid = false
    · rw [if_pos hb]
      exact ⟨Or.inr rfl, ⟨fun _ => Or.inr (Or.inl hb), fun _ => rfl⟩, fun _ => rfl⟩
    · rw [if_neg hb]
      by_cases hd : find_duplicates_run stdHash fs (find_files events).1 = []
      · rw [if_pos hd]
        refine ⟨Or.inl rfl,
          ⟨fun h0 => absurd (show (0 : Nat) = 1 from h0) (by decide), ?_⟩, ?_⟩
        · rintro (h | h | ⟨hd', _⟩)
          · exact absurd h hne
          · exact absurd h hb
          · exact absurd hd hd'
        · rintro (h | h)
          · exact absurd h hne
          · exact absurd h hb
      · rw [if_neg hd]
        rcases hh : handle_duplicates mt re le ((args.drop 1).headD "--list")
          (find_duplicates_run stdHash fs (find_files events).1) st with e | t
        · refine ⟨Or.inr rfl, ⟨fun _ => Or.inr (Or.inr ⟨hd, rfl⟩),
            fun _ => rfl⟩, ?_⟩
          rintro (h | h)
          · exact absurd h hne
          · exact absurd h hb
        · refine ⟨Or.inl rfl,
            ⟨fun h0 => absurd (show (0 : Nat) = 1 from h0) (by decide), ?_⟩, ?_⟩
          · rintro (h | h | ⟨_, herr⟩)
            · exact absurd h hne
            · exact absurd h hb
            · simp [isErr] at herr
          · rintro (h | h)
            · exact absurd h hne
            · exact absurd h hb

/-- C8 witness: an invalid root exits 1 with nothing scanned; the same
world with a valid root (duplicates found and processed) exits 0. -/
theorem C8_witness :
    (main_run stdHashEx fsEx mtEx reNone leNone ["root"] false eventsEx stAll).exit
      = 1 ∧
    (main_run stdHashEx fsEx mtEx reNone leNone ["root"] false eventsEx stAll).scanned
      = none ∧
    (main_run stdHashEx fsEx mtEx reNone leNone ["root"] true eventsEx stAll).exit
      = 0 :=
  have h1 := C8_exit_status stdHashEx fsEx mtEx reNone leNone ["root"] false eventsEx stAll
  have h2 := C8_exit_status stdHashEx fsEx mtEx reNone leNone ["root"] true eventsEx stAll
  ⟨h1.2.1.mpr (Or.inr (Or.inl rfl)), h1.2.2 (Or.inr rfl),
    h2.1.resolve_right (fun hone => by
      rcases h2.2.1.mp hone with h | h | ⟨_, herr⟩
      · exact absurd h (by decide)
      · exact absurd h (by decide)
      · exact absurd herr (by decide))⟩

/-- C9: for a fixed catalog whose recorded sizes agree with the content
store, the key→group association `find_duplicates` produces is the same
under any two iteration orders of the size map that are permutations of
one another — the emitted group set and memberships are run-independent. -/
theorem C9_order_determinism (stdHash : List Nat → Nat)
    (fs : String → Option (List Nat)) (files : List FileInfo)
    (order1 order2 : List Nat) (hcons : Consistent fs files)
    (hperm : order1.Perm order2) (q : String) :
    alGet q (find_duplicates stdHash fs order1 files)
      = alGet q (find_duplicates stdHash fs order2 files) := by
  rw [find_duplicates, find_duplicates, alGet_find_duplicates_fold,
    alGet_find_duplicates_fold]
  exact foldl_writeStep_perm hcons hperm _ q

/-- C9 witness: processing the two size buckets in either order yields the
same group at the duplicate digest (and everywhere else it is looked up). -/
theorem C9_witness :
    alGet "1_5" (find_duplicates stdHashEx fsEx [1, 2] filesEx)
      = alGet "1_5" (find_duplicates stdHashEx fsEx [2, 1] filesEx) :=
  C9_order_determinism stdHashEx fsEx filesEx [1, 2] [2, 1]
    (by
      intro f hf c hc
      fin_cases hf
      · rw [show fsEx (FileInfo.mk "a" 1 "").path = some [5] from rfl] at hc
        injection hc with h
        rw [← h]
        rfl
      · rw [show fsEx (FileInfo.mk "b" 1 "").path = some [5] from rfl] at hc
        injection hc with h
        rw [← h]
        rfl
      · rw [show fsEx (FileInfo.mk "c" 2 "").path = some [8, 9] from rfl] at hc
        injection hc with h
        rw [← h]
        rfl)
    (by decide) "1_5"

/-- C10: any action argument other than exactly `"--delete"` and
`"--hardlink"` falls through both `if` tests of the per-file loop: the run
is indistinguishable from list mode, attempts no mutation, leaves the
filesystem state unchanged, and no error is raised for the unrecognised
action (the outcome of the run is the same `Except` value). -/
theorem C10_unknown_action (mt : String → Option Nat) (re le : String → Bool)
    (action : String) (groups : List (String × List FileInfo)) (st : FsSt)
    (h1 : action ≠ "--delete") (h2 : action ≠ "--hardlink") :
    handle_duplicates mt re le action groups st
      = handle_duplicates mt re le "--list" groups st ∧
    (∀ t, handle_duplicates mt re le action groups st = Except.ok t →
      t.2.1 = st ∧ t.2.2 = []) ∧
    (∀ e, handle_duplicates mt re le action groups st = Except.error e →
      e.2.1 = st ∧ e.2.2 = []) := by
  induction groups generalizing st with
  | nil =>
    refine ⟨rfl, ?_, ?_⟩
    · intro t ht
      injection ht with ht'
      rw [← ht']
      exact ⟨rfl, rfl⟩
    · intro e he
      exact Except.noConfusion he
  | cons gr rest ih =>
    rcases gr with ⟨h, fl⟩
    rw [handle_duplicates, handle_duplicates]
    rcases hmt : mtimesOf mt (fl.map FileInfo.path) with _ | ts
    · refine ⟨rfl, ?_, ?_⟩
      · intro t ht
        exact Except.noConfusion ht
      · intro e he
        injection he with he'
        rw [← he']
        exact ⟨rfl, rfl⟩
    · have hp := processSorted_unknown action h1 h2 re le h
        (sortByMt (fun p => (mt p).getD 0) (fl.map FileInfo.path)) st
      have hp' := processSorted_unknown "--list" (by decide) (by decide) re le h
        (sortByMt (fun p => (mt p).getD 0) (fl.map FileInfo.path)) st
      rw [hp.1, hp'.2.1, hp'.2.2]
      have ihst := ih st
      rw [ihst.1]
      rcases hr : handle_duplicates mt re le "--list" rest st with e | t
      · have hframe := ihst.2.2 e (ihst.1.trans hr)
        refine ⟨rfl, ?_, ?_⟩
        · intro t ht
          exact Except.noConfusion ht
        · intro e' he'
          injection he' with he''
          rw [← he'']
          exact ⟨hframe.1, by rw [hframe.2]; rfl⟩
      · have hframe := ihst.2.1 t (ihst.1.trans hr)
        refine ⟨rfl, ?_, ?_⟩
        · intro t' ht'
          injection ht' with ht''
          rw [← ht'']
          exact ⟨hframe.1, by rw [hframe.2]; rfl⟩
        · intro e' he'
          exact Except.noConfusion he'

/-- C10 witness: a misspelled action behaves exactly like list mode on the
concrete world. -/
theorem C10_witness :
    handle_duplicates mtEx reNone leNone "--frobnicate" groupsEx stAll
      = handle_duplicates mtEx reNone leNone "--list" groupsEx stAll :=
  (C10_unknown_action mtEx reNone leNone "--frobnicate" groupsEx stAll
    (by decide) (by decide)).1

end Dedup
